import Mathlib

/-!
Verification of the multipage module of the qpageview package
(frescobaldi_app/qpageview/multipage.py).

The module defines `MultiPage`, a composite page holding a list of embedded
sub pages (first one on top), and `MultiPageRenderer`, a renderer that defers
rendering to the renderers of the sub pages.  We give a shallow embedding of
the data the module manipulates: Qt integer rectangles and regions are modelled
over ℤ with explicit point semantics, page objects become records of the
fields the module reads and writes, the weak-reference forwarding-callback
table becomes an association table indexed by object identities together with
an explicit liveness map (a `World`), and painting becomes a trace of paint
operations with a pixel semantics.
-/

namespace Multipage

/-- QRect models Qt's integer rectangle with origin `(x, y)`, width `w` and
height `h`; a point `(a, b)` lies in it when `x ≤ a < x + w` and
`y ≤ b < y + h`. -/
structure QRect where
  x : ℤ
  y : ℤ
  w : ℤ
  h : ℤ
  deriving DecidableEq, Repr

/-- Emptiness test of a Qt rectangle: width or height not positive. -/
def QRect.isEmpty (r : QRect) : Bool :=
  decide (r.w ≤ 0) || decide (r.h ≤ 0)

/-- Intersection of two rectangles (the `&` operator on QRect); agrees with
Qt whenever the intersection is non-empty. -/
def QRect.inter (a b : QRect) : QRect :=
  ⟨max a.x b.x, max a.y b.y,
    min (a.x + a.w) (b.x + b.w) - max a.x b.x,
    min (a.y + a.h) (b.y + b.h) - max a.y b.y⟩

/-- Point membership of a rectangle, as a Boolean. -/
def QRect.containsB (r : QRect) (p : ℤ × ℤ) : Bool :=
  decide (r.x ≤ p.1) && decide (p.1 < r.x + r.w) &&
    decide (r.y ≤ p.2) && decide (p.2 < r.y + r.h)

/-- Translation of a rectangle (QRect.translated). -/
def QRect.translated (r : QRect) (dx dy : ℤ) : QRect :=
  ⟨r.x + dx, r.y + dy, r.w, r.h⟩

/-- Center of a rectangle, with Qt's integer arithmetic
(`(x1 + x2) / 2` with `x2 = x + w - 1`, division truncating toward zero). -/
def QRect.center (r : QRect) : ℤ × ℤ :=
  (Int.tdiv (r.x + (r.x + r.w - 1)) 2, Int.tdiv (r.y + (r.y + r.h - 1)) 2)

/-- Move a rectangle so that its center becomes `c`, with Qt's integer
arithmetic (`x1 = c.x - (width - 1) / 2`). -/
def QRect.moveCenter (r : QRect) (c : ℤ × ℤ) : QRect :=
  ⟨c.1 - Int.tdiv (r.w - 1) 2, c.2 - Int.tdiv (r.h - 1) 2, r.w, r.h⟩

/-- Enumeration of the integer points of a rectangle. -/
def QRect.points (r : QRect) : List (ℤ × ℤ) :=
  (List.range r.w.toNat).flatMap fun (i : ℕ) =>
    (List.range r.h.toNat).map fun (j : ℕ) => (r.x + (i : ℤ), r.y + (j : ℤ))

/-- Membership of a point in a QRegion, a region being the union of a list of
rectangles. -/
def regionContains (reg : List QRect) (p : ℤ × ℤ) : Bool :=
  reg.any fun q => q.containsB p

/-- Emptiness of `QRegion(r).subtracted(reg)`: the rectangle `r` is fully
covered by the region `reg`. -/
def coversRect (reg : List QRect) (r : QRect) : Bool :=
  r.points.all fun p => regionContains reg p

theorem containsB_iff (r : QRect) (p : ℤ × ℤ) :
    r.containsB p = true ↔
      r.x ≤ p.1 ∧ p.1 < r.x + r.w ∧ r.y ≤ p.2 ∧ p.2 < r.y + r.h := by
  simp [QRect.containsB, and_assoc]

theorem isEmpty_iff (r : QRect) : r.isEmpty = true ↔ r.w ≤ 0 ∨ r.h ≤ 0 := by
  simp [QRect.isEmpty]

theorem mem_points_iff (r : QRect) (p : ℤ × ℤ) :
    p ∈ r.points ↔ r.containsB p = true := by
  obtain ⟨a, b⟩ := p
  constructor
  · intro h
    rw [QRect.points, List.mem_flatMap] at h
    obtain ⟨i, hi, h⟩ := h
    rw [List.mem_map] at h
    obtain ⟨j, hj, h⟩ := h
    rw [List.mem_range] at hi hj
    have h1 : r.x + (i : ℤ) = a := congrArg Prod.fst h
    have h2 : r.y + (j : ℤ) = b := congrArg Prod.snd h
    rw [containsB_iff]
    omega
  · intro h
    rw [containsB_iff] at h
    rw [QRect.points, List.mem_flatMap]
    refine ⟨(a - r.x).toNat, ?_, ?_⟩
    · rw [List.mem_range]
      omega
    · rw [List.mem_map]
      refine ⟨(b - r.y).toNat, ?_, ?_⟩
      · rw [List.mem_range]
        omega
      · rw [Prod.mk.injEq]
        constructor <;> omega

theorem coversRect_iff (reg : List QRect) (r : QRect) :
    coversRect reg r = true ↔
      ∀ p : ℤ × ℤ, r.containsB p = true → regionContains reg p = true := by
  simp only [coversRect, List.all_eq_true]
  constructor
  · intro h p hp
    exact h p ((mem_points_iff r p).mpr hp)
  · intro h p hp
    exact h p ((mem_points_iff r p).mp hp)

theorem inter_containsB (a b : QRect) (p : ℤ × ℤ) :
    (a.inter b).containsB p = true ↔
      a.containsB p = true ∧ b.containsB p = true := by
  simp only [QRect.inter, containsB_iff]
  omega

theorem inter_isEmpty_of_left (a b : QRect) (h : a.isEmpty = true) :
    (a.inter b).isEmpty = true := by
  simp only [QRect.inter, isEmpty_iff] at h ⊢
  omega

theorem containsB_corner (r : QRect) (h : r.isEmpty = false) :
    r.containsB (r.x, r.y) = true := by
  have : ¬ (r.w ≤ 0 ∨ r.h ≤ 0) := by
    intro hc
    rw [← isEmpty_iff] at hc
    simp [hc] at h
  rw [containsB_iff]
  omega

theorem coversRect_nil (r : QRect) (h : r.isEmpty = false) :
    coversRect [] r = false := by
  rw [← Bool.not_eq_true]
  intro hc
  have := (coversRect_iff [] r).mp hc (r.x, r.y) (containsB_corner r h)
  simp [regionContains] at this

theorem isEmpty_of_coversRect_nil (r : QRect) (h : coversRect [] r = true) :
    r.isEmpty = true := by
  by_contra hne
  rw [Bool.not_eq_true] at hne
  rw [coversRect_nil r hne] at h
  cases h

/-- Sub page: a record of the fields of the embedded page objects that
multipage.py reads or writes.  `pid` is the identity of the page object,
`renderer` the identity of the renderer of the page (`none` when the page has
no renderer), `pageWidth`, `pageHeight`, `scaleX`, `scaleY` and `dpi` the
natural size data of the base page abstraction, `x`, `y`, `width`, `height`
its geometry, `rotation` its own rotation and `computedRotation` the
effective rotation in quarter turns. -/
structure SubPage where
  pid : ℕ := 0
  rotation : ℕ := 0
  computedRotation : ℕ := 0
  pageWidth : ℚ := 0
  pageHeight : ℚ := 0
  scaleX : ℚ := 1
  scaleY : ℚ := 1
  dpi : ℚ := 72
  x : ℤ := 0
  y : ℤ := 0
  width : ℤ := 0
  height : ℤ := 0
  renderer : Option ℕ := none
  paperColor : Option ℕ := none
  deriving DecidableEq, Repr

/-- Geometry of a sub page inside its composite page (util geometry of the
base page abstraction): position and size. -/
def SubPage.geometry (p : SubPage) : QRect :=
  ⟨p.x, p.y, p.width, p.height⟩

/-- Modelled from the spec: the rect of a page is its size at the origin (the
base page abstraction, not part of src/, provides rect(), pos() and
setGeometry()). -/
def SubPage.rect (p : SubPage) : QRect :=
  ⟨0, 0, p.width, p.height⟩

/-- Modelled from the spec: setGeometry of the base page abstraction stores
position and size of the given rectangle. -/
def SubPage.setGeometry (p : SubPage) (r : QRect) : SubPage :=
  { p with x := r.x, y := r.y, width := r.w, height := r.h }

/-- Modelled from the spec: AbstractPage.updateSize of the base page
abstraction (page.py is not part of src/): the page size is recomputed from
its natural size, scale, resolution and the given zoom factor, and an odd
computed rotation swaps width and height (spec §4.2: rotation parity). -/
def SubPage.updateSize (p : SubPage) (dpiX dpiY zoomFactor : ℚ) : SubPage :=
  let w0 := round (p.pageWidth * p.scaleX * zoomFactor * dpiX / p.dpi)
  let h0 := round (p.pageHeight * p.scaleY * zoomFactor * dpiY / p.dpi)
  let wh := if p.computedRotation % 2 = 1 then (h0, w0) else (w0, h0)
  { p with width := wh.1, height := wh.2 }

/-- MultiPage (lines 41-119): a page with a list of embedded sub pages, the
first one on top.  `pid` is the identity of the composite page object,
`rendererAttr` the instance attribute `renderer` (`none` when `__init__` was
called without a renderer), and the remaining fields are the page state of
the base page abstraction plus the two class attributes `scalePages` and
`opaquePages`. -/
@[ext]
structure MultiPage where
  pid : ℕ := 0
  rotation : ℕ := 0
  computedRotation : ℕ := 0
  pageWidth : ℚ := 0
  pageHeight : ℚ := 0
  scaleX : ℚ := 1
  scaleY : ℚ := 1
  dpi : ℚ := 72
  width : ℤ := 0
  height : ℤ := 0
  paperColor : Option ℕ := none
  pages : List SubPage := []
  scalePages : ℚ := 1
  opaquePages : Bool := true
  rendererAttr : Option ℕ := none
  deriving DecidableEq, Repr

/-- Rect of the composite page: its size at the origin. -/
def MultiPage.rect (m : MultiPage) : QRect :=
  ⟨0, 0, m.width, m.height⟩

/-- Modelled from the spec: the super().updateSize(dpiX, dpiY, zoomFactor)
call on line 82, i.e. AbstractPage.updateSize applied to the composite page
itself; same rule as `SubPage.updateSize`. -/
def MultiPage.updateSizeSelf (m : MultiPage) (dpiX dpiY zoomFactor : ℚ) : MultiPage :=
  let w0 := round (m.pageWidth * m.scaleX * zoomFactor * dpiX / m.dpi)
  let h0 := round (m.pageHeight * m.scaleY * zoomFactor * dpiY / m.dpi)
  let wh := if m.computedRotation % 2 = 1 then (h0, w0) else (w0, h0)
  { m with width := wh.1, height := wh.2 }

/-- MultiPage.updatePagePositions (lines 91-102): center every sub page's
rect on the center of the composite page's rect and store it as the sub
page's geometry. -/
def MultiPage.updatePagePositions (m : MultiPage) : MultiPage :=
  { m with pages := m.pages.map fun p => p.setGeometry (p.rect.moveCenter m.rect.center) }

/-- MultiPage.updateSize (lines 75-89): update the composite page's own size,
then for every sub page set its computed rotation to
`(page.rotation + self.computedRotation) & 3` and update its size with zoom
factor `zoomFactor * self.scalePages`; finally update the page positions. -/
def MultiPage.updateSize (m : MultiPage) (dpiX dpiY zoomFactor : ℚ) : MultiPage :=
  let m1 := m.updateSizeSelf dpiX dpiY zoomFactor
  let m2 : MultiPage := { m1 with
    pages := m1.pages.map fun p =>
      SubPage.updateSize
        { p with computedRotation := (p.rotation + m1.computedRotation) &&& 3 }
        dpiX dpiY (zoomFactor * m1.scalePages) }
  m2.updatePagePositions

/-- MultiPage.visiblePagesAt (lines 104-119), with the covered region as an
explicit accumulator: each sub page whose geometry meets `rect` contributes
the pair (page, overlayrect); with opaque pages a page whose overlay is
already covered is skipped and the scan breaks as soon as all of `rect` is
covered. -/
def visibleScan (opq : Bool) (rect : QRect) :
    List SubPage → List QRect → List (SubPage × QRect)
  | [], _ => []
  | p :: ps, covered =>
    if (rect.inter p.geometry).isEmpty then visibleScan opq rect ps covered
    else if opq && coversRect covered (rect.inter p.geometry) then
      visibleScan opq rect ps covered
    else
      (p, rect.inter p.geometry) ::
        (if opq && coversRect (rect.inter p.geometry :: covered) rect then []
         else visibleScan opq rect ps (rect.inter p.geometry :: covered))

/-- Entry point of the visibility scan: covered region starts empty. -/
def MultiPage.visiblePagesAt (m : MultiPage) (rect : QRect) : List (SubPage × QRect) :=
  visibleScan m.opaquePages rect m.pages []

/-- Reference definition following the spec's words for the opaque case
(spec §3 invariant and §8): scan the children topmost-first, stop as soon as
the union of the already yielded rects covers all of the requested rectangle,
skip a child whose overlap with the rectangle is fully contained in the union
of the overlaps of the earlier yielded children, and otherwise yield the
child with its overlap. -/
def visibleSpecScan (rect : QRect) :
    List SubPage → List QRect → List (SubPage × QRect)
  | [], _ => []
  | p :: ps, yielded =>
    if coversRect yielded rect then []
    else if (rect.inter p.geometry).isEmpty then visibleSpecScan rect ps yielded
    else if coversRect yielded (rect.inter p.geometry) then visibleSpecScan rect ps yielded
    else (p, rect.inter p.geometry) :: visibleSpecScan rect ps (rect.inter p.geometry :: yielded)

theorem visibleScan_mem {opq : Bool} {rect : QRect} {ps : List SubPage}
    {covered : List QRect} {pr : SubPage × QRect}
    (h : pr ∈ visibleScan opq rect ps covered) :
    pr.2 = rect.inter pr.1.geometry ∧ pr.2.isEmpty = false := by
  induction ps generalizing covered with
  | nil => simp [visibleScan] at h
  | cons p ps ih =>
    rw [visibleScan] at h
    split at h
    · exact ih h
    · split at h
      · exact ih h
      · rcases List.mem_cons.mp h with hh | hh
        · subst hh
          refine ⟨rfl, ?_⟩
          rw [Bool.not_eq_true] at *
          assumption
        · split at hh
          · simp at hh
          · exact ih hh

theorem visibleScan_of_empty {opq : Bool} {rect : QRect} (hR : rect.isEmpty = true)
    (ps : List SubPage) (covered : List QRect) :
    visibleScan opq rect ps covered = [] := by
  induction ps generalizing covered with
  | nil => rw [visibleScan]
  | cons p ps ih =>
    rw [visibleScan]
    rw [inter_isEmpty_of_left rect p.geometry hR]
    simp only [if_true]
    exact ih covered

/-- C4: every pair (child, r) yielded by visiblePagesAt has r equal to the
intersection of the requested rectangle with the child's geometry, r
non-empty and r contained in the requested rectangle (for either value of
opaquePages), and an empty requested rectangle yields an empty sequence. -/
theorem visiblePagesAt_intersections_sound (m : MultiPage) (R : QRect) :
    (∀ pr ∈ m.visiblePagesAt R,
        pr.2 = R.inter pr.1.geometry ∧ pr.2.isEmpty = false ∧
          ∀ pt : ℤ × ℤ, pr.2.containsB pt = true → R.containsB pt = true) ∧
      (R.isEmpty = true → m.visiblePagesAt R = []) := by
  constructor
  · intro pr h
    obtain ⟨h1, h2⟩ := visibleScan_mem h
    refine ⟨h1, h2, ?_⟩
    intro pt hpt
    rw [h1] at hpt
    exact ((inter_containsB R pr.1.geometry pt).mp hpt).1
  · intro hR
    exact visibleScan_of_empty hR m.pages []

theorem visibleSpecScan_stop {rect : QRect} {yielded : List QRect}
    (h : coversRect yielded rect = true) (ps : List SubPage) :
    visibleSpecScan rect ps yielded = [] := by
  cases ps with
  | nil => rw [visibleSpecScan]
  | cons p ps =>
    rw [visibleSpecScan, h]
    simp only [if_true]

theorem visibleScan_eq_spec {rect : QRect} {ps : List SubPage}
    {covered : List QRect} (h : coversRect covered rect = false) :
    visibleScan true rect ps covered = visibleSpecScan rect ps covered := by
  induction ps generalizing covered with
  | nil =>
    rw [visibleScan, visibleSpecScan]
  | cons p ps ih =>
    rw [visibleScan, visibleSpecScan, h]
    simp only [Bool.false_eq_true, if_false, Bool.true_and]
    split
    · exact ih h
    · split
      · exact ih h
      · congr 1
        by_cases hc : coversRect (rect.inter p.geometry :: covered) rect = true
        · rw [hc]
          simp only [if_true]
          exact (visibleSpecScan_stop hc ps).symm
        · rw [Bool.not_eq_true] at hc
          rw [hc]
          simp only [Bool.false_eq_true, if_false]
          exact ih hc

/-- Composite page used in the counterexample to C5: a single sub page with a
10 by 10 geometry at the origin, opaque pages. -/
def cexPage : SubPage :=
  { pid := 1, x := 0, y := 0, width := 10, height := 10 }

/-- Composite page holding `cexPage`. -/
def cexMulti : MultiPage :=
  { pages := [cexPage], opaquePages := true }

/-- Empty requested rectangle used in the counterexample to C5. -/
def cexRect : QRect := ⟨0, 0, 0, 0⟩

/-- C5 counterexample: with opaquePages = true, the first (and only) child's
geometry fully covers the empty requested rectangle (vacuously), yet the scan
yields no entry at all rather than exactly one entry. -/
theorem visiblePagesAt_full_cover_fails_on_empty_rect :
    cexMulti.opaquePages = true ∧
      (∀ pt : ℤ × ℤ, cexRect.containsB pt = true → cexPage.geometry.containsB pt = true) ∧
      cexMulti.visiblePagesAt cexRect = [] ∧
      ∀ e : SubPage × QRect, cexMulti.visiblePagesAt cexRect ≠ [e] := by
  have hvis : cexMulti.visiblePagesAt cexRect = [] := by decide
  refine ⟨rfl, ?_, hvis, ?_⟩
  · intro pt hpt
    rw [containsB_iff] at hpt
    exact absurd hpt (by simp [cexRect])
  · intro e he
    rw [hvis] at he
    cases he

theorem coversRect_self (R : QRect) : coversRect [R] R = true := by
  rw [coversRect_iff]
  intro p hp
  simp [regionContains, hp]

theorem inter_eq_of_covers (R g : QRect) (hR : R.isEmpty = false)
    (hcov : ∀ pt : ℤ × ℤ, R.containsB pt = true → g.containsB pt = true) :
    R.inter g = R := by
  have hne : ¬ (R.w ≤ 0 ∨ R.h ≤ 0) := by
    rw [← isEmpty_iff]
    simp [hR]
  have h1 := hcov (R.x, R.y) (by rw [containsB_iff]; simp only []; omega)
  have h2 := hcov (R.x + R.w - 1, R.y + R.h - 1)
    (by rw [containsB_iff]; simp only []; omega)
  rw [containsB_iff] at h1 h2
  obtain ⟨a, b, c, d⟩ := R
  simp only [QRect.inter, QRect.mk.injEq] at *
  refine ⟨?_, ?_, ?_, ?_⟩ <;> omega

/-- C5 (amended): with opaquePages = true the visibility scan equals the
reference scan written from the spec's words (skip a child whose overlap is
contained in the union of the overlaps of earlier yielded children, stop as
soon as that union covers the whole requested rectangle), and when the
requested rectangle is non-empty and the first child's geometry fully covers
it, exactly that child is yielded, with the whole rectangle as overlap. -/
theorem visiblePagesAt_opaque_refines_spec (m : MultiPage) (R : QRect)
    (hop : m.opaquePages = true) :
    m.visiblePagesAt R = visibleSpecScan R m.pages [] ∧
      ∀ p ps, m.pages = p :: ps → R.isEmpty = false →
        (∀ pt : ℤ × ℤ, R.containsB pt = true → p.geometry.containsB pt = true) →
        m.visiblePagesAt R = [(p, R)] := by
  constructor
  · unfold MultiPage.visiblePagesAt
    rw [hop]
    by_cases h : coversRect [] R = true
    · rw [visibleScan_of_empty (isEmpty_of_coversRect_nil R h), visibleSpecScan_stop h]
    · rw [Bool.not_eq_true] at h
      exact visibleScan_eq_spec h
  · intro p ps hpages hR hcov
    unfold MultiPage.visiblePagesAt
    rw [hop, hpages]
    have hint : R.inter p.geometry = R := inter_eq_of_covers R p.geometry hR hcov
    rw [visibleScan, hint, hR, coversRect_nil R hR, coversRect_self R]
    simp

/-- Composite page used in the witness for the amended C5: one child whose
geometry covers the requested rectangle. -/
def witMulti : MultiPage :=
  { pages := [{ pid := 2, x := 0, y := 0, width := 4, height := 4 }], opaquePages := true }

/-- Non-empty requested rectangle used in the witness for the amended C5. -/
def witRect : QRect := ⟨1, 1, 2, 2⟩

theorem visiblePagesAt_opaque_refines_spec_witness :
    witMulti.opaquePages = true ∧
      (witMulti.visiblePagesAt witRect = visibleSpecScan witRect witMulti.pages [] ∧
        ∀ p ps, witMulti.pages = p :: ps → witRect.isEmpty = false →
          (∀ pt : ℤ × ℤ, witRect.containsB pt = true → p.geometry.containsB pt = true) →
          witMulti.visiblePagesAt witRect = [(p, witRect)]) :=
  ⟨rfl, visiblePagesAt_opaque_refines_spec witMulti witRect rfl⟩

theorem land_three_eq_mod_four (n : ℕ) : n &&& 3 = n % 4 := by
  have h := Nat.and_pow_two_sub_one_eq_mod n 2
  norm_num at h
  exact h

theorem zip_map_snd {α β : Type} (l : List α) (f : α → β) :
    ∀ pc ∈ l.zip (l.map f), pc.2 = f pc.1 := by
  induction l with
  | nil =>
    intro pc h
    simp at h
  | cons a t ih =>
    intro pc h
    rw [List.map_cons, List.zip_cons_cons] at h
    rcases List.mem_cons.mp h with hh | hh
    · subst hh
      rfl
    · exact ih pc hh

theorem updateSize_pages_eq (m : MultiPage) (dpiX dpiY z : ℚ) :
    (m.updateSize dpiX dpiY z).pages =
      m.pages.map fun p =>
        (SubPage.updateSize
            { p with computedRotation := (p.rotation + m.computedRotation) &&& 3 }
            dpiX dpiY (z * m.scalePages)).setGeometry
          ((SubPage.updateSize
              { p with computedRotation := (p.rotation + m.computedRotation) &&& 3 }
              dpiX dpiY (z * m.scalePages)).rect.moveCenter
            (m.updateSizeSelf dpiX dpiY z).rect.center) := by
  simp only [MultiPage.updateSize, MultiPage.updatePagePositions]
  rw [List.map_map]
  rfl

/-- C6: after MultiPage.updateSize, pairing every original child with the
corresponding updated child, the updated child's computedRotation equals the
child's own rotation plus the composite's computedRotation, mod 4, and the
updated child's width and height are exactly those computed by the child's
own updateSize called with zoom factor zoomFactor * scalePages (at that new
computed rotation). -/
theorem updateSize_child_rotation_and_zoom (m : MultiPage) (dpiX dpiY z : ℚ) :
    (m.updateSize dpiX dpiY z).pages.length = m.pages.length ∧
      ∀ pc ∈ m.pages.zip (m.updateSize dpiX dpiY z).pages,
        pc.2.computedRotation = (pc.1.rotation + m.computedRotation) % 4 ∧
        pc.2.width =
          (SubPage.updateSize
            { pc.1 with computedRotation := (pc.1.rotation + m.computedRotation) % 4 }
            dpiX dpiY (z * m.scalePages)).width ∧
        pc.2.height =
          (SubPage.updateSize
            { pc.1 with computedRotation := (pc.1.rotation + m.computedRotation) % 4 }
            dpiX dpiY (z * m.scalePages)).height := by
  rw [updateSize_pages_eq m dpiX dpiY z]
  constructor
  · exact List.length_map _ _
  · intro pc hpc
    have h2 := zip_map_snd m.pages _ pc hpc
    rw [h2, ← land_three_eq_mod_four]
    exact ⟨rfl, rfl, rfl⟩

/-- C9: MultiPage.updateSize is idempotent: a second call with identical
arguments leaves the composite page, and in particular every child's
computedRotation, size and geometry, exactly as after the first call. -/
theorem updateSize_idempotent (m : MultiPage) (dpiX dpiY z : ℚ) :
    (m.updateSize dpiX dpiY z).updateSize dpiX dpiY z = m.updateSize dpiX dpiY z := by
  have h2 := updateSize_pages_eq (m.updateSize dpiX dpiY z) dpiX dpiY z
  rw [updateSize_pages_eq m dpiX dpiY z, List.map_map] at h2
  ext : 1
  case pages =>
    rw [h2, updateSize_pages_eq m dpiX dpiY z]
    rfl
  all_goals rfl

/-- Identity of the single module-level MultiPageRenderer instance installed
as the class attribute at import time (line 275: `MultiPage.renderer =
MultiPageRenderer()`). -/
def classRenderer : ℕ := 0

/-- MultiPage.__init__ (lines 64-67): the pages list starts empty and the
renderer instance attribute is set only when a renderer argument is given. -/
def MultiPage.init (renderer : Option ℕ) : MultiPage :=
  { pages := [], rendererAttr := renderer }

/-- Python attribute lookup for the renderer of a MultiPage: the instance
attribute when present, else the class attribute. -/
def MultiPage.rendererOf (m : MultiPage) : ℕ :=
  m.rendererAttr.getD classRenderer

/-- C10: a MultiPage constructed without a renderer argument stores no
instance attribute and resolves its renderer to the single class-level
instance, so all such instances share that one renderer object (and hence its
forwarding-callback table); an explicit renderer argument is stored on the
instance and resolved instead. -/
theorem default_renderer_shared :
    (MultiPage.init none).rendererAttr = none ∧
      (MultiPage.init none).rendererOf = classRenderer ∧
      (∀ m1 m2 : MultiPage, m1.rendererAttr = none → m2.rendererAttr = none →
        m1.rendererOf = m2.rendererOf) ∧
      ∀ r : ℕ, (MultiPage.init (some r)).rendererAttr = some r ∧
        (MultiPage.init (some r)).rendererOf = r := by
  refine ⟨rfl, rfl, ?_, ?_⟩
  · intro m1 m2 h1 h2
    unfold MultiPage.rendererOf
    rw [h1, h2]
  · intro r
    exact ⟨rfl, rfl⟩

/-- World: which object identities are currently alive; dereferencing a weak
reference to object `n` returns the object when `w n = true` and None
otherwise. -/
abbrev World := ℕ → Bool

/-- Forwarding callback closure created inside makecallback (lines 157-165):
`fid` is the identity of the closure object itself, `pageref` and `cbref`
are the weak references to the composite page and to the original callback
that it captured. -/
structure FwdEntry where
  fid : ℕ
  pageref : ℕ
  cbref : ℕ
  deriving DecidableEq, Repr

/-- The `_callbacks` WeakKeyDictionary (line 126): per live composite page a
dictionary from callback weak references to forwarding callbacks.  Keys are
object identities; two weak references to the same live object compare
equal, so after the purge the inner dictionaries are faithfully keyed by the
identity of the referenced callback. -/
abbrev CbTable := List (ℕ × List (ℕ × FwdEntry))

/-- State of a MultiPageRenderer: its forwarding-callback table and a counter
supplying the identity of the next freshly allocated closure. -/
structure RState where
  table : CbTable
  next : ℕ
  deriving DecidableEq, Repr

/-- Purge of the callback table at the start of makecallback (lines 138-145):
entries whose referenced page has died have already disappeared from the
WeakKeyDictionary; the loop removes every inner entry whose callback weak
reference is dead and drops a page whose inner dictionary becomes empty. -/
def purgeTable (w : World) : CbTable → CbTable
  | [] => []
  | (q, d) :: t =>
    if w q then
      if (d.filter fun rc => w rc.1).isEmpty then purgeTable w t
      else (q, d.filter fun rc => w rc.1) :: purgeTable w t
    else purgeTable w t

/-- Lookup in an inner dictionary, keyed by the identity of the referenced
callback. -/
def lookupD : List (ℕ × FwdEntry) → ℕ → Option FwdEntry
  | [], _ => none
  | (rkey, f) :: d, c => if rkey = c then some f else lookupD d c

/-- Lookup of `self._callbacks[page][callbackref]` (line 155). -/
def lookupCb : CbTable → ℕ → ℕ → Option FwdEntry
  | [], _, _ => none
  | (q, d) :: t, p, c => if q = p then lookupD d c else lookupCb t p c

/-- Insertion `self._callbacks.setdefault(page, {})[callbackref] =
newcallback` (line 164). -/
def insertCb : CbTable → ℕ → ℕ → FwdEntry → CbTable
  | [], p, c, f => [(p, [(c, f)])]
  | (q, d) :: t, p, c, f =>
    if q = p then (q, d ++ [(c, f)]) :: t else (q, d) :: insertCb t p c f

/-- Entries collected by the comprehension on lines 139-141: for every page
still present in the WeakKeyDictionary (live key), every callback weak
reference that has expired, as a pair (ref, page), in table order.  The
comprehension's own loop variables are scoped to the comprehension and do
not leak. -/
def deadCallbacks (w : World) (t : CbTable) : List (ℕ × ℕ) :=
  (t.filter fun e => w e.1).flatMap fun e =>
    (e.2.filter fun rc => !(w rc.1)).map fun rc => (rc.1, e.1)

/-- Value of the variable `page` after the purge loop on lines 142-145: the
statement-level `for r, page in deadcallbacks` rebinds the function
parameter `page` at each iteration, so after a non-empty purge it holds the
page of the last purged entry, which may differ from the argument. -/
def pageAfterPurge (w : World) (t : CbTable) (page : ℕ) : ℕ :=
  (deadCallbacks w t).foldl (fun _ rp => rp.2) page

/-- MultiPageRenderer.makecallback (lines 128-165): purge dead weak
references (the loop rebinding the `page` variable as modelled by
`pageAfterPurge`), then return the existing forwarding callback stored for
the resulting value of `page` and the callback if present, else allocate a
fresh closure capturing weak references to that page value and the callback,
store it under those keys and return it. -/
def makecallback (w : World) (s : RState) (callback page : ℕ) : FwdEntry × RState :=
  match lookupCb (purgeTable w s.table) (pageAfterPurge w s.table page) callback with
  | some f => (f, ⟨purgeTable w s.table, s.next⟩)
  | none =>
    (⟨s.next, pageAfterPurge w s.table page, callback⟩,
      ⟨insertCb (purgeTable w s.table) (pageAfterPurge w s.table page) callback
          ⟨s.next, pageAfterPurge w s.table page, callback⟩,
        s.next + 1⟩)

/-- Invocation of a forwarding callback with a child page (lines 158-163):
dereference both captured weak references and, only when both are alive,
call the original callback with the composite page; the result records the
call made, as (callback, argument), and is `none` when no call happens.  The
child argument is ignored. -/
def invokeFwd (w : World) (f : FwdEntry) (child : ℕ) : Option (ℕ × ℕ) :=
  if w f.pageref && w f.cbref then some (f.cbref, f.pageref) else none

/-- Well-formedness of a callback table: every stored forwarding entry
captures exactly the page and callback it is keyed under.  Every table the
program ever builds satisfies this. -/
def WFTableB (t : CbTable) : Bool :=
  t.all fun e => e.2.all fun rc => rc.2.pageref == e.1 && rc.2.cbref == rc.1

theorem purgeTable_length_le (w : World) (t : CbTable) :
    (purgeTable w t).length ≤ t.length := by
  induction t with
  | nil => simp [purgeTable]
  | cons e t ih =>
    obtain ⟨q, d⟩ := e
    rw [purgeTable]
    split
    · split
      · exact Nat.le_succ_of_le ih
      · exact Nat.succ_le_succ ih
    · exact Nat.le_succ_of_le ih

theorem purgeTable_fix_inv {w : World} {q : ℕ} {d : List (ℕ × FwdEntry)}
    {t : CbTable} (h : purgeTable w ((q, d) :: t) = (q, d) :: t) :
    w q = true ∧ d.filter (fun rc => w rc.1) = d ∧ d.isEmpty = false ∧
      purgeTable w t = t := by
  rw [purgeTable] at h
  by_cases hw : w q
  · rw [if_pos hw] at h
    by_cases he : (d.filter fun rc => w rc.1).isEmpty
    · rw [if_pos he] at h
      have := purgeTable_length_le w t
      rw [h] at this
      simp at this
    · rw [if_neg he] at h
      obtain ⟨h1, h2⟩ := List.cons.injEq .. ▸ h
      have hd : d.filter (fun rc => w rc.1) = d := congrArg Prod.snd h1
      refine ⟨hw, hd, ?_, h2⟩
      rw [hd] at he
      rw [Bool.not_eq_true] at he
      exact he
  · rw [if_neg hw] at h
    have := purgeTable_length_le w t
    rw [h] at this
    simp at this

theorem purgeTable_idem (w : World) (t : CbTable) :
    purgeTable w (purgeTable w t) = purgeTable w t := by
  induction t with
  | nil => rfl
  | cons e t ih =>
    obtain ⟨q, d⟩ := e
    rw [purgeTable]
    split
    · split
      · exact ih
      · rw [purgeTable]
        rename_i hw he
        rw [if_pos hw, List.filter_filter]
        have hff : (d.filter fun rc => w rc.1 && w rc.1) = d.filter fun rc => w rc.1 := by
          apply List.filter_congr
          intro a _
          rw [Bool.and_self]
        rw [hff, if_neg he, ih]
    · exact ih

theorem purgeTable_insert_fixed {w : World} {t : CbTable} {p c : ℕ} {f : FwdEntry}
    (ht : purgeTable w t = t) (hp : w p = true) (hc : w c = true) :
    purgeTable w (insertCb t p c f) = insertCb t p c f := by
  induction t with
  | nil =>
    rw [insertCb, purgeTable, if_pos hp]
    rw [List.filter_cons_of_pos, List.filter_nil]
    · rfl
    · exact hc
  | cons e t ih =>
    obtain ⟨q, d⟩ := e
    obtain ⟨hw, hd, hde, ht2⟩ := purgeTable_fix_inv ht
    rw [insertCb]
    by_cases hqp : q = p
    · rw [if_pos hqp, purgeTable, if_pos hw, List.filter_append, hd]
      rw [List.filter_cons_of_pos, List.filter_nil]
      · have : (d ++ [(c, f)]).isEmpty = false := by
          cases d <;> rfl
        rw [this]
        simp only [Bool.false_eq_true, if_false, ht2]
      · exact hc
    · rw [if_neg hqp, purgeTable, if_pos hw, hd, hde]
      simp only [Bool.false_eq_true, if_false]
      rw [ih ht2]

theorem lookupD_append_self {d : List (ℕ × FwdEntry)} {c : ℕ} {f : FwdEntry}
    (h : lookupD d c = none) : lookupD (d ++ [(c, f)]) c = some f := by
  induction d with
  | nil =>
    rw [List.nil_append, lookupD, if_pos rfl]
  | cons e d ih =>
    obtain ⟨rkey, g⟩ := e
    rw [lookupD] at h
    rw [List.cons_append, lookupD]
    by_cases hr : rkey = c
    · rw [if_pos hr] at h
      cases h
    · rw [if_neg hr] at h ⊢
      exact ih h

theorem lookupCb_insert_self {t : CbTable} {p c : ℕ} {f : FwdEntry}
    (h : lookupCb t p c = none) : lookupCb (insertCb t p c f) p c = some f := by
  induction t with
  | nil =>
    rw [insertCb, lookupCb, if_pos rfl, lookupD, if_pos rfl]
  | cons e t ih =>
    obtain ⟨q, d⟩ := e
    rw [lookupCb] at h
    rw [insertCb]
    by_cases hq : q = p
    · rw [if_pos hq] at h ⊢
      rw [lookupCb, if_pos hq]
      exact lookupD_append_self h
    · rw [if_neg hq] at h ⊢
      rw [lookupCb, if_neg hq]
      exact ih h

/-- Well-formedness of a callback table: every stored forwarding entry
captures exactly the page and the callback it is keyed under.  Every table
the renderer ever builds satisfies this. -/
def WFTable (t : CbTable) : Prop :=
  ∀ e ∈ t, ∀ rc ∈ e.2, rc.2.pageref = e.1 ∧ rc.2.cbref = rc.1

theorem WFTable_nil : WFTable [] := by
  intro e he
  simp at he

theorem WFTable_purge {w : World} {t : CbTable} (h : WFTable t) :
    WFTable (purgeTable w t) := by
  induction t with
  | nil =>
    intro e he
    rw [purgeTable] at he
    simp at he
  | cons e0 t ih =>
    obtain ⟨q, d⟩ := e0
    have hihs := ih fun e he rc hrc => h e (List.mem_cons_of_mem _ he) rc hrc
    intro e he
    rw [purgeTable] at he
    split at he
    · split at he
      · exact hihs e he
      · rcases List.mem_cons.mp he with hh | hh
        · subst hh
          intro rc hrc
          exact h (q, d) (List.mem_cons_self _ _) rc (List.mem_of_mem_filter hrc)
        · exact hihs e hh
    · exact hihs e he

theorem WFTable_insert {t : CbTable} {p c n : ℕ} (h : WFTable t) :
    WFTable (insertCb t p c ⟨n, p, c⟩) := by
  induction t with
  | nil =>
    intro e he
    rw [insertCb] at he
    rcases List.mem_cons.mp he with hh | hh
    · subst hh
      intro rc hrc
      rcases List.mem_cons.mp hrc with h2 | h2
      · subst h2
        exact ⟨rfl, rfl⟩
      · simp at h2
    · simp at hh
  | cons e0 t ih =>
    obtain ⟨q, d⟩ := e0
    intro e he
    rw [insertCb] at he
    split at he
    · rename_i hqp
      rcases List.mem_cons.mp he with hh | hh
      · subst hh
        intro rc hrc
        rcases List.mem_append.mp hrc with hm | hm
        · exact h (q, d) (List.mem_cons_self _ _) rc hm
        · rw [List.mem_singleton] at hm
          subst hm
          exact ⟨hqp.symm, rfl⟩
      · exact h e (List.mem_cons_of_mem _ hh)
    · rcases List.mem_cons.mp he with hh | hh
      · subst hh
        exact h (q, d) (List.mem_cons_self _ _)
      · exact ih (fun e he2 rc hrc => h e (List.mem_cons_of_mem _ he2) rc hrc) e hh

theorem lookupD_wf {p c : ℕ} {d : List (ℕ × FwdEntry)} {f : FwdEntry}
    (h : lookupD d c = some f)
    (hwf : ∀ rc ∈ d, rc.2.pageref = p ∧ rc.2.cbref = rc.1) :
    f.pageref = p ∧ f.cbref = c := by
  induction d with
  | nil => cases h
  | cons e d ih =>
    obtain ⟨rkey, g⟩ := e
    rw [lookupD] at h
    split at h
    · rename_i hr
      have hgf : g = f := Option.some.inj h
      subst hgf
      obtain ⟨ha, hb⟩ := hwf (rkey, g) (List.mem_cons_self _ _)
      exact ⟨ha, by rw [hb, hr]⟩
    · exact ih h fun rc hrc => hwf rc (List.mem_cons_of_mem _ hrc)

theorem lookupCb_wf {t : CbTable} {p c : ℕ} {f : FwdEntry}
    (h : lookupCb t p c = some f) (hwf : WFTable t) :
    f.pageref = p ∧ f.cbref = c := by
  induction t with
  | nil => cases h
  | cons e t ih =>
    obtain ⟨q, d⟩ := e
    rw [lookupCb] at h
    split at h
    · rename_i hq
      subst hq
      exact lookupD_wf h fun rc hrc => hwf (q, d) (List.mem_cons_self _ _) rc hrc
    · exact ih h fun e he rc hrc => hwf e (List.mem_cons_of_mem _ he) rc hrc

theorem makecallback_eq_some {w : World} {s : RState} {c p : ℕ} {f : FwdEntry}
    (hL : lookupCb (purgeTable w s.table) (pageAfterPurge w s.table p) c = some f) :
    makecallback w s c p = (f, ⟨purgeTable w s.table, s.next⟩) := by
  unfold makecallback
  rw [hL]

theorem makecallback_eq_none {w : World} {s : RState} {c p : ℕ}
    (hL : lookupCb (purgeTable w s.table) (pageAfterPurge w s.table p) c = none) :
    makecallback w s c p =
      (⟨s.next, pageAfterPurge w s.table p, c⟩,
        ⟨insertCb (purgeTable w s.table) (pageAfterPurge w s.table p) c
            ⟨s.next, pageAfterPurge w s.table p, c⟩,
          s.next + 1⟩) := by
  unfold makecallback
  rw [hL]

theorem makecallback_cbref {w : World} {s : RState} {c p : ℕ}
    (hwf : WFTable s.table) : ((makecallback w s c p).1).cbref = c := by
  cases hL : lookupCb (purgeTable w s.table) (pageAfterPurge w s.table p) c with
  | some f =>
    rw [makecallback_eq_some hL]
    exact (lookupCb_wf hL (WFTable_purge hwf)).2
  | none =>
    rw [makecallback_eq_none hL]

theorem makecallback_wf {w : World} {s : RState} {c p : ℕ}
    (hwf : WFTable s.table) : WFTable ((makecallback w s c p).2).table := by
  cases hL : lookupCb (purgeTable w s.table) (pageAfterPurge w s.table p) c with
  | some f =>
    rw [makecallback_eq_some hL]
    exact WFTable_purge hwf
  | none =>
    rw [makecallback_eq_none hL]
    exact WFTable_insert (WFTable_purge hwf)

theorem deadCallbacks_live {w : World} {t : CbTable} :
    ∀ rp ∈ deadCallbacks w t, w rp.2 = true := by
  intro rp hrp
  unfold deadCallbacks at hrp
  rw [List.mem_flatMap] at hrp
  obtain ⟨e, he, hrp⟩ := hrp
  rw [List.mem_map] at hrp
  obtain ⟨rc, hrc, hrp⟩ := hrp
  subst hrp
  show w e.1 = true
  exact (List.mem_filter.mp he).2

theorem foldl_rebind_live {w : World} :
    ∀ (l : List (ℕ × ℕ)) (p : ℕ), w p = true → (∀ rp ∈ l, w rp.2 = true) →
      w (l.foldl (fun _ rp => rp.2) p) = true := by
  intro l
  induction l with
  | nil =>
    intro p hp _
    exact hp
  | cons rp l ih =>
    intro p _ hall
    rw [List.foldl_cons]
    exact ih rp.2 (hall rp (List.mem_cons_self _ _))
      fun x hx => hall x (List.mem_cons_of_mem _ hx)

theorem pageAfterPurge_live {w : World} {t : CbTable} {p : ℕ}
    (hp : w p = true) : w (pageAfterPurge w t p) = true :=
  foldl_rebind_live (deadCallbacks w t) p hp deadCallbacks_live

/-- World used in witnesses: objects 0 and 2 are alive. -/
def wLiveA : World := fun n => n == 0 || n == 2

/-- World used in witnesses: objects 1 and 2 are alive (object 0 has been
garbage collected). -/
def wLiveB : World := fun n => n == 1 || n == 2

/-- World of the C1 bug exhibit: callback 0, page 2 and page 3 are alive;
the weak reference 1 has expired. -/
def wBug : World := fun n => n == 0 || n == 2 || n == 3

/-- State of the C1 bug exhibit: the table holds one expired entry (dead
callback reference 1) under the live composite page 2. -/
def sBug : RState := ⟨[(2, [(1, ⟨7, 2, 1⟩)])], 8⟩

/-- C1 (bug exhibit): calling makecallback with live callback 0 and live
composite page 3 while the table holds an expired entry for the other live
page 2 returns a forwarding callback whose captured page reference is page 2
— invoking it calls the callback with page 2, not page 3 — because the purge
loop on line 142 rebinds the `page` parameter; and the repeated call returns
a different forwarding callback object.  This contradicts the claim (and the
docstring of makecallback, lines 129-136). -/
theorem makecallback_shadowing_bug :
    wBug 0 = true ∧ wBug 3 = true ∧ WFTable sBug.table ∧
      (makecallback wBug sBug 0 3).1.pageref = 2 ∧
      (makecallback wBug sBug 0 3).1.pageref ≠ 3 ∧
      (∀ child : ℕ, invokeFwd wBug (makecallback wBug sBug 0 3).1 child = some (0, 2)) ∧
      (makecallback wBug (makecallback wBug sBug 0 3).2 0 3).1 ≠
        (makecallback wBug sBug 0 3).1 := by
  have hf1 : (makecallback wBug sBug 0 3).1 = ⟨8, 2, 0⟩ := by decide
  have hwf : WFTable sBug.table := by
    intro e he rc hrc
    have he2 : e ∈ [((2 : ℕ), [((1 : ℕ), FwdEntry.mk 7 2 1)])] := he
    rw [List.mem_singleton] at he2
    subst he2
    have hrc2 : rc ∈ [((1 : ℕ), FwdEntry.mk 7 2 1)] := hrc
    rw [List.mem_singleton] at hrc2
    subst hrc2
    exact ⟨rfl, rfl⟩
  refine ⟨rfl, rfl, hwf, ?_, ?_, ?_, ?_⟩
  · rw [hf1]
  · rw [hf1]
    decide
  · intro child
    rw [hf1]
    show (if wBug 2 && wBug 0 then some ((0 : ℕ), (2 : ℕ)) else none) = some (0, 2)
    decide
  · rw [hf1]
    decide

theorem purgeTable_entries {w : World} {t : CbTable} :
    ∀ e ∈ purgeTable w t, w e.1 = true ∧ e.2 ≠ [] ∧ ∀ rc ∈ e.2, w rc.1 = true := by
  induction t with
  | nil =>
    intro e he
    rw [purgeTable] at he
    simp at he
  | cons e0 t ih =>
    obtain ⟨q, d⟩ := e0
    intro e he
    rw [purgeTable] at he
    split at he
    · rename_i hw
      split at he
      · exact ih e he
      · rename_i hne
        rcases List.mem_cons.mp he with hh | hh
        · subst hh
          refine ⟨hw, ?_, ?_⟩
          · intro h0
            have h0f : List.filter (fun rc => w rc.1) d = [] := h0
            rw [h0f] at hne
            exact hne rfl
          · intro rc hrc
            have hrcf : rc ∈ List.filter (fun rc => w rc.1) d := hrc
            exact (List.mem_filter.mp hrcf).2
        · exact ih e hh
    · exact ih e he

theorem insertCb_entries {w : World} {t : CbTable} {p c : ℕ} {f : FwdEntry}
    (hbase : ∀ e ∈ t, w e.1 = true ∧ e.2 ≠ [] ∧ ∀ rc ∈ e.2, w rc.1 = true)
    (hp : w p = true) (hc : w c = true) :
    ∀ e ∈ insertCb t p c f, w e.1 = true ∧ e.2 ≠ [] ∧ ∀ rc ∈ e.2, w rc.1 = true := by
  induction t with
  | nil =>
    intro e he
    rw [insertCb] at he
    rcases List.mem_cons.mp he with hh | hh
    · subst hh
      refine ⟨hp, by simp, ?_⟩
      intro rc hrc
      rw [List.mem_singleton] at hrc
      subst hrc
      exact hc
    · simp at hh
  | cons e0 t ih =>
    obtain ⟨q, d⟩ := e0
    intro e he
    rw [insertCb] at he
    split at he
    · rcases List.mem_cons.mp he with hh | hh
      · subst hh
        obtain ⟨ha, hb, hcc⟩ := hbase (q, d) (List.mem_cons_self _ _)
        refine ⟨ha, by simp, ?_⟩
        intro rc hrc
        rcases List.mem_append.mp hrc with hm | hm
        · exact hcc rc hm
        · rw [List.mem_singleton] at hm
          subst hm
          exact hc
      · exact hbase e (List.mem_cons_of_mem _ hh)
    · rcases List.mem_cons.mp he with hh | hh
      · subst hh
        exact hbase (q, d) (List.mem_cons_self _ _)
      · exact ih (fun e he2 => hbase e (List.mem_cons_of_mem _ he2)) e hh

/-- C2: makecallback removes every entry whose callback weak reference has
expired (and every page whose inner dictionary thereby becomes empty) before
creating any new entry — every page key and callback key in the resulting
table is alive — and after the previously registered callback for a page has
been garbage collected, a further call with a new callback returns a fresh
forwarding callback, not the stale entry. -/
theorem makecallback_purge_invariant (w1 w2 : World) (s : RState) (c1 c2 p : ℕ)
    (h1 : w1 c1 = true) (hp1 : w1 p = true) (hdead : w2 c1 = false)
    (h2 : w2 c2 = true) (hp2 : w2 p = true) :
    (∀ e ∈ ((makecallback w1 s c1 p).2).table,
        w1 e.1 = true ∧ e.2 ≠ [] ∧ ∀ rc ∈ e.2, w1 rc.1 = true) ∧
      (makecallback w2 (makecallback w1 ⟨[], 0⟩ c1 p).2 c2 p).1 ≠
        (makecallback w1 ⟨[], 0⟩ c1 p).1 := by
  constructor
  · cases hL : lookupCb (purgeTable w1 s.table) (pageAfterPurge w1 s.table p) c1 with
    | some f =>
      rw [makecallback_eq_some hL]
      exact purgeTable_entries
    | none =>
      rw [makecallback_eq_none hL]
      exact insertCb_entries purgeTable_entries (pageAfterPurge_live hp1) h1
  · have h1eq : makecallback w1 ⟨[], 0⟩ c1 p =
        (⟨0, p, c1⟩, ⟨[(p, [(c1, ⟨0, p, c1⟩)])], 1⟩) := rfl
    rw [h1eq]
    have hpurge : purgeTable w2 [(p, [(c1, FwdEntry.mk 0 p c1)])] = [] := by
      rw [purgeTable, if_pos hp2, List.filter_cons_of_neg, List.filter_nil]
      · simp only [List.isEmpty_nil]
        rw [if_pos trivial, purgeTable]
      · simp [hdead]
    have hsh : pageAfterPurge w2 [(p, [(c1, FwdEntry.mk 0 p c1)])] p = p := by
      simp [pageAfterPurge, deadCallbacks, hp2, hdead]
    have hL2 : lookupCb
        (purgeTable w2 ((⟨[(p, [(c1, FwdEntry.mk 0 p c1)])], 1⟩ : RState).table))
        (pageAfterPurge w2 ((⟨[(p, [(c1, FwdEntry.mk 0 p c1)])], 1⟩ : RState).table) p)
        c2 = none := by
      show lookupCb (purgeTable w2 [(p, [(c1, FwdEntry.mk 0 p c1)])])
        (pageAfterPurge w2 [(p, [(c1, FwdEntry.mk 0 p c1)])] p) c2 = none
      rw [hpurge, hsh]
      rfl
    show (makecallback w2 (⟨[(p, [(c1, ⟨0, p, c1⟩)])], 1⟩ : RState) c2 p).1 ≠
      (⟨0, p, c1⟩ : FwdEntry)
    rw [makecallback_eq_none hL2]
    intro hcontra
    have hfid := congrArg FwdEntry.fid hcontra
    simp at hfid

/-- Value of `newcallback = self.makecallback(callback, page) if callback
else None` (lines 170, 181, 243): the forwarding callback derived for the
given composite page, or None when no callback was given. -/
def fwdOpt (w : World) (s : RState) (callback : Option ℕ) (pid : ℕ) : Option FwdEntry :=
  Option.map (fun c => (makecallback w s c pid).1) callback

/-- Renderer state after the same conditional makecallback call. -/
def cbState (w : World) (s : RState) (callback : Option ℕ) (pid : ℕ) : RState :=
  match callback with
  | some c => (makecallback w s c pid).2
  | none => s

theorem cbState_wf {w : World} {s : RState} {callback : Option ℕ} {pid : ℕ}
    (hwf : WFTable s.table) : WFTable ((cbState w s callback pid).table) := by
  cases callback with
  | none => exact hwf
  | some c => exact makecallback_wf hwf

/-- MultiPageRenderer.update (lines 167-176): derive the forwarding callback,
then for every (page, overlayrect) of visiblePagesAt delegate to the child's
renderer when the child has one, passing the overlap rect translated into the
child's local coordinates; the overall result is false as soon as one
delegated call returns false.  `cu` stands for the delegated call
`p.renderer.update(p, device, rect, newcallback)` and yields the Bool the
child's renderer returns; the device argument plays no role here. -/
def MultiPageRenderer.update (cu : SubPage → QRect → Option FwdEntry → Bool)
    (w : World) (s : RState) (m : MultiPage) (rect : QRect)
    (callback : Option ℕ) : Bool × RState :=
  ((m.visiblePagesAt rect).foldl
      (fun ok pr =>
        if pr.1.renderer.isSome &&
            !(cu pr.1 (pr.2.translated (-pr.1.x) (-pr.1.y))
                (fwdOpt w s callback m.pid)) then
          false
        else ok)
      true,
    cbState w s callback m.pid)

theorem foldl_and_pending {α : Type} (q : α → Bool) (l : List α) (b : Bool) :
    l.foldl (fun ok x => if q x then false else ok) b = (b && l.all fun x => !q x) := by
  induction l generalizing b with
  | nil => simp
  | cons a t ih =>
    rw [List.foldl_cons, List.all_cons, ih]
    by_cases hq : q a = true
    · rw [hq]
      simp
    · rw [Bool.not_eq_true] at hq
      rw [hq]
      simp

theorem ready_flag_iff (o : Option ℕ) (b : Bool) :
    (!(o.isSome && !b)) = true ↔ ∀ r, o = some r → b = true := by
  cases o <;> cases b <;> simp

/-- C3: update returns true exactly when no visible child possessing a
renderer reports pending work (logical AND over the delegated calls); a
visible child without a renderer is skipped and does not affect the result,
and each delegated call receives the overlap rect translated into the
child's local coordinates. -/
theorem update_all_children_ready_iff
    (cu : SubPage → QRect → Option FwdEntry → Bool) (w : World) (s : RState)
    (m : MultiPage) (rect : QRect) (callback : Option ℕ) :
    (MultiPageRenderer.update cu w s m rect callback).1 = true ↔
      ∀ pr ∈ m.visiblePagesAt rect, ∀ r, pr.1.renderer = some r →
        cu pr.1 (pr.2.translated (-pr.1.x) (-pr.1.y))
          (fwdOpt w s callback m.pid) = true := by
  have hfst : (MultiPageRenderer.update cu w s m rect callback).1 =
      (m.visiblePagesAt rect).foldl
        (fun ok pr =>
          if pr.1.renderer.isSome &&
              !(cu pr.1 (pr.2.translated (-pr.1.x) (-pr.1.y))
                  (fwdOpt w s callback m.pid)) then
            false
          else ok)
        true := rfl
  rw [hfst, foldl_and_pending, Bool.true_and]
  constructor
  · intro h pr hpr r hr
    have h2 := List.all_eq_true.mp h pr hpr
    exact (ready_flag_iff _ _).mp h2 r hr
  · intro h
    apply List.all_eq_true.mpr
    intro pr hpr
    exact (ready_flag_iff _ _).mpr (h pr hpr)

theorem makecallback_purge_invariant_witness :
    (∀ e ∈ ((makecallback wLiveA ⟨[], 0⟩ 0 2).2).table,
        wLiveA e.1 = true ∧ e.2 ≠ [] ∧ ∀ rc ∈ e.2, wLiveA rc.1 = true) ∧
      (makecallback wLiveB (makecallback wLiveA ⟨[], 0⟩ 0 2).2 1 2).1 ≠
        (makecallback wLiveA ⟨[], 0⟩ 0 2).1 :=
  makecallback_purge_invariant wLiveA wLiveB ⟨[], 0⟩ 0 1 2 rfl rfl rfl rfl rfl

/-- Content of one pixel of the painting surface: a flat color or the
rendered content of a sub page. -/
inductive Pix where
  | color (c : ℕ)
  | page (pid : ℕ)
  deriving DecidableEq, Repr

/-- Operation recorded on the painter: fill a rectangle with a color, or draw
the surface holding a child's rendering over a rectangle. -/
inductive PaintOp where
  | fill (r : QRect) (c : ℕ)
  | draw (r : QRect) (pid : ℕ)
  deriving DecidableEq, Repr

/-- Effect of one paint operation on the painter's pixels: later operations
paint over earlier content. -/
def PaintOp.apply (base : ℤ × ℤ → Option Pix) (op : PaintOp) : ℤ × ℤ → Option Pix :=
  fun pt =>
    match op with
    | .fill r c => if r.containsB pt then some (.color c) else base pt
    | .draw r pid => if r.containsB pt then some (.page pid) else base pt

/-- Pixels of the painter after running a list of paint operations in order
over an initial content. -/
def evalOps (ops : List PaintOp) (base : ℤ × ℤ → Option Pix) : ℤ × ℤ → Option Pix :=
  ops.foldl PaintOp.apply base

/-- Numeric value of the Qt global color white (Qt.white). -/
def qtWhite : ℕ := 3

/-- Resolution of `page.paperColor or self.paperColor or QColor(Qt.white)`
(line 204): the page's paper color when set, else the renderer's, else
white. -/
def resolvedPaperColor (m : MultiPage) (rendererPaper : Option ℕ) : ℕ :=
  ((m.paperColor).orElse fun _ => rendererPaper).getD qtWhite

/-- MultiPageRenderer.combine (lines 258-269): draw the staged (position,
image) pairs starting with the last, so that the first listed image ends on
top.  A staged pair is the overlay rectangle the surface covers together
with the identity of the child whose rendering it holds. -/
def MultiPageRenderer.combine (images : List (QRect × ℕ)) : List PaintOp :=
  images.reverse.map fun im => PaintOp.draw im.1 im.2

/-- MultiPageRenderer.paint (lines 178-207): for every visible (page,
overlayrect) a surface holding that child's rendering of the overlap is
staged; after the loop, if part of the requested rectangle is not covered by
the union of the overlaps, the rectangle is filled with the resolved paper
color; finally the staged surfaces are combined.  The trace lists the
operations performed on the painter in order.  The derivation of the
forwarding callback passed to the children (line 181) is modelled separately
by `fwdOpt` and does not influence the painted output. -/
def MultiPageRenderer.paint (rendererPaper : Option ℕ) (m : MultiPage)
    (rect : QRect) : List PaintOp :=
  (if coversRect ((m.visiblePagesAt rect).map fun pr => pr.2) rect then []
   else [PaintOp.fill rect (resolvedPaperColor m rendererPaper)]) ++
    MultiPageRenderer.combine ((m.visiblePagesAt rect).map fun pr => (pr.2, pr.1.pid))

theorem evalOps_append (xs ys : List PaintOp) (base : ℤ × ℤ → Option Pix) :
    evalOps (xs ++ ys) base = evalOps ys (evalOps xs base) := by
  unfold evalOps
  rw [List.foldl_append]

theorem evalOps_append_one (xs : List PaintOp) (op : PaintOp)
    (base : ℤ × ℤ → Option Pix) :
    evalOps (xs ++ [op]) base = PaintOp.apply (evalOps xs base) op := by
  unfold evalOps
  rw [List.foldl_append, List.foldl_cons, List.foldl_nil]

theorem combine_cons (e : QRect × ℕ) (t : List (QRect × ℕ)) :
    MultiPageRenderer.combine (e :: t) =
      MultiPageRenderer.combine t ++ [PaintOp.draw e.1 e.2] := by
  unfold MultiPageRenderer.combine
  rw [List.reverse_cons, List.map_append]
  rfl

theorem evalOps_combine_found {l : List (QRect × ℕ)} {pt : ℤ × ℤ} {e : QRect × ℕ}
    (h : l.find? (fun e => e.1.containsB pt) = some e)
    (base : ℤ × ℤ → Option Pix) :
    evalOps (MultiPageRenderer.combine l) base pt = some (.page e.2) := by
  induction l generalizing base with
  | nil => cases h
  | cons e0 t ih =>
    rw [List.find?_cons] at h
    rw [combine_cons, evalOps_append_one]
    show (if e0.1.containsB pt = true then some (Pix.page e0.2)
          else evalOps (MultiPageRenderer.combine t) base pt) = some (Pix.page e.2)
    by_cases h0 : e0.1.containsB pt = true
    · simp only [h0] at h
      have he : e0 = e := Option.some.inj h
      rw [if_pos h0, he]
    · rw [Bool.not_eq_true] at h0
      simp only [h0] at h
      rw [if_neg (by rw [h0]; intro hcontra; cases hcontra)]
      exact ih h base

theorem evalOps_combine_none {l : List (QRect × ℕ)} {pt : ℤ × ℤ}
    (h : l.find? (fun e => e.1.containsB pt) = none)
    (base : ℤ × ℤ → Option Pix) :
    evalOps (MultiPageRenderer.combine l) base pt = base pt := by
  induction l generalizing base with
  | nil => rfl
  | cons e0 t ih =>
    rw [List.find?_cons] at h
    rw [combine_cons, evalOps_append_one]
    show (if e0.1.containsB pt = true then some (Pix.page e0.2)
          else evalOps (MultiPageRenderer.combine t) base pt) = base pt
    by_cases h0 : e0.1.containsB pt = true
    · simp only [h0] at h
      cases h
    · rw [Bool.not_eq_true] at h0
      simp only [h0] at h
      rw [if_neg (by rw [h0]; intro hcontra; cases hcontra)]
      exact ih h base

theorem find?_pixmaps (vis : List (SubPage × QRect)) (pt : ℤ × ℤ) :
    ((vis.map fun pr => (pr.2, pr.1.pid)).find? fun e => e.1.containsB pt) =
      (vis.find? fun pr => pr.2.containsB pt).map fun pr => (pr.2, pr.1.pid) := by
  rw [List.find?_map]
  rfl

theorem region_map_false_iff (vis : List (SubPage × QRect)) (pt : ℤ × ℤ) :
    regionContains (vis.map fun pr => pr.2) pt = false ↔
      ∀ pr ∈ vis, pr.2.containsB pt = false := by
  unfold regionContains
  rw [List.any_eq_false]
  constructor
  · intro h pr hpr
    have h2 := h pr.2 (List.mem_map_of_mem _ hpr)
    rwa [Bool.not_eq_true] at h2
  · intro h q hq
    rw [List.mem_map] at hq
    obtain ⟨pr, hpr, hq2⟩ := hq
    subst hq2
    rw [Bool.not_eq_true]
    exact h pr hpr

theorem coversRect_false_iff (reg : List QRect) (r : QRect) :
    coversRect reg r = false ↔
      ∃ pt : ℤ × ℤ, r.containsB pt = true ∧ regionContains reg pt = false := by
  constructor
  · intro h
    have hn : ¬ (coversRect reg r = true) := by
      rw [h]
      simp
    rw [coversRect_iff] at hn
    push_neg at hn
    obtain ⟨pt, h1, h2⟩ := hn
    exact ⟨pt, h1, Bool.eq_false_iff.mpr h2⟩
  · rintro ⟨pt, h1, h2⟩
    rw [← Bool.not_eq_true, coversRect_iff]
    intro hall
    rw [hall pt h1] at h2
    cases h2

theorem fill_not_mem_combine (l : List (QRect × ℕ)) (r : QRect) (c : ℕ) :
    PaintOp.fill r c ∉ MultiPageRenderer.combine l := by
  intro h
  unfold MultiPageRenderer.combine at h
  rw [List.mem_map] at h
  obtain ⟨e, he, hEq⟩ := h
  cases hEq

/-- C7: in the paint trace, the fill with the resolved paper color (page's
paperColor if set, else the renderer's, else white) happens exactly when some
point of the requested rectangle is covered by no visible child's overlap; a
pixel covered by some visible overlap ends up holding the first-yielded
(topmost) such child's content, because the staged surfaces are drawn in
reverse order; and an uncovered pixel of the rectangle ends up holding the
resolved paper color. -/
theorem paint_background_and_topmost (rendererPaper : Option ℕ) (m : MultiPage)
    (rect : QRect) (base : ℤ × ℤ → Option Pix) (pt : ℤ × ℤ) :
    (PaintOp.fill rect (resolvedPaperColor m rendererPaper) ∈
        MultiPageRenderer.paint rendererPaper m rect ↔
      ∃ q : ℤ × ℤ, rect.containsB q = true ∧
        ∀ pr ∈ m.visiblePagesAt rect, pr.2.containsB q = false) ∧
      (∀ pr0, ((m.visiblePagesAt rect).find? fun pr => pr.2.containsB pt) = some pr0 →
        evalOps (MultiPageRenderer.paint rendererPaper m rect) base pt =
          some (.page pr0.1.pid)) ∧
      (rect.containsB pt = true →
        (∀ pr ∈ m.visiblePagesAt rect, pr.2.containsB pt = false) →
        evalOps (MultiPageRenderer.paint rendererPaper m rect) base pt =
          some (.color (resolvedPaperColor m rendererPaper))) := by
  refine ⟨?_, ?_, ?_⟩
  · unfold MultiPageRenderer.paint
    constructor
    · intro h
      rcases List.mem_append.mp h with hm | hm
      · by_cases hcov : coversRect ((m.visiblePagesAt rect).map fun pr => pr.2) rect = true
        · rw [if_pos hcov] at hm
          cases hm
        · rw [Bool.not_eq_true] at hcov
          obtain ⟨q, h1, h2⟩ := (coversRect_false_iff _ _).mp hcov
          exact ⟨q, h1, (region_map_false_iff _ _).mp h2⟩
      · exact absurd hm (fill_not_mem_combine _ _ _)
    · rintro ⟨q, h1, h2⟩
      have hreg : regionContains ((m.visiblePagesAt rect).map fun pr => pr.2) q = false :=
        (region_map_false_iff _ _).mpr h2
      have hcov : coversRect ((m.visiblePagesAt rect).map fun pr => pr.2) rect = false :=
        (coversRect_false_iff _ _).mpr ⟨q, h1, hreg⟩
      rw [hcov]
      simp only [Bool.false_eq_true, if_false]
      exact List.mem_append_left _ (List.mem_singleton.mpr rfl)
  · intro pr0 hfind
    unfold MultiPageRenderer.paint
    rw [evalOps_append]
    have hpix : (((m.visiblePagesAt rect).map fun pr => (pr.2, pr.1.pid)).find? fun e =>
        e.1.containsB pt) = some (pr0.2, pr0.1.pid) := by
      rw [find?_pixmaps, hfind]
      rfl
    exact evalOps_combine_found hpix _
  · intro hpt hall
    unfold MultiPageRenderer.paint
    rw [evalOps_append]
    have hfind : ((m.visiblePagesAt rect).find? fun pr => pr.2.containsB pt) = none := by
      rw [List.find?_eq_none]
      intro pr hpr
      rw [hall pr hpr]
      intro hcontra
      cases hcontra
    have hpix : (((m.visiblePagesAt rect).map fun pr => (pr.2, pr.1.pid)).find? fun e =>
        e.1.containsB pt) = none := by
      rw [find?_pixmaps, hfind]
      rfl
    rw [evalOps_combine_none hpix]
    have hcov : coversRect ((m.visiblePagesAt rect).map fun pr => pr.2) rect = false :=
      (coversRect_false_iff _ _).mpr ⟨pt, hpt, (region_map_false_iff _ _).mpr hall⟩
    rw [hcov]
    simp only [Bool.false_eq_true, if_false]
    show PaintOp.apply base (PaintOp.fill rect (resolvedPaperColor m rendererPaper)) pt =
      some (Pix.color (resolvedPaperColor m rendererPaper))
    show (if rect.containsB pt = true
          then some (Pix.color (resolvedPaperColor m rendererPaper))
          else base pt) =
      some (Pix.color (resolvedPaperColor m rendererPaper))
    rw [if_pos hpt]

/-- MultiPageRenderer.unschedule (lines 240-246): for every given composite
page derive the forwarding callback (or None when no callback was given) and
forward to the renderer of every child that has one — all children of the
pages list, not only the currently visible ones.  The result collects the
delegated calls (child renderer, child page, forwarded callback) in order,
together with the final renderer state. -/
def MultiPageRenderer.unschedule (w : World) :
    RState → List MultiPage → Option ℕ → List (ℕ × ℕ × Option FwdEntry) × RState
  | s, [], _ => ([], s)
  | s, page :: rest, callback =>
    ((page.pages.filterMap fun p => p.renderer.map fun r =>
        (r, p.pid, fwdOpt w s callback page.pid)) ++
        (MultiPageRenderer.unschedule w (cbState w s callback page.pid) rest callback).1,
      (MultiPageRenderer.unschedule w (cbState w s callback page.pid) rest callback).2)

/-- C8: unschedule delegates, for every given composite page, to the renderer
of every child in its pages list (not only the visible ones): every child
possessing a renderer receives a delegated call carrying a forwarding
callback derived by makecallback for the given callback (None when the
callback is None — when it is not, the derived closure captures a weak
reference to that callback), and every delegated call in the trace belongs
to some child possessing that renderer — children without a renderer are
skipped. -/
theorem unschedule_delegates_to_all_children (w : World) (s : RState)
    (pages : List MultiPage) (callback : Option ℕ) (hwf : WFTable s.table) :
    (∀ P ∈ pages, ∀ p ∈ P.pages, ∀ r, p.renderer = some r →
        ∃ cb, (r, p.pid, cb) ∈ (MultiPageRenderer.unschedule w s pages callback).1 ∧
          (callback = none → cb = none) ∧
          ∀ c, callback = some c → ∃ f, cb = some f ∧ f.cbref = c) ∧
      ∀ t ∈ (MultiPageRenderer.unschedule w s pages callback).1,
        ∃ P ∈ pages, ∃ p ∈ P.pages, p.renderer = some t.1 ∧ t.2.1 = p.pid := by
  induction pages generalizing s with
  | nil =>
    constructor
    · intro P hP
      simp at hP
    · intro t ht
      rw [MultiPageRenderer.unschedule] at ht
      simp at ht
  | cons page rest ih =>
    obtain ⟨ihA, ihB⟩ := ih (cbState w s callback page.pid) (cbState_wf hwf)
    rw [MultiPageRenderer.unschedule]
    constructor
    · intro P hP p hp r hr
      rcases List.mem_cons.mp hP with hh | hh
      · subst hh
        refine ⟨fwdOpt w s callback P.pid, ?_, ?_, ?_⟩
        · apply List.mem_append_left
          rw [List.mem_filterMap]
          refine ⟨p, hp, ?_⟩
          rw [hr]
          rfl
        · intro hcb
          rw [hcb]
          rfl
        · intro c hcb
          subst hcb
          exact ⟨(makecallback w s c P.pid).1, rfl, makecallback_cbref hwf⟩
      · obtain ⟨cb, hmem, hnone, hsome⟩ := ihA P hh p hp r hr
        exact ⟨cb, List.mem_append_right _ hmem, hnone, hsome⟩
    · intro t ht
      rcases List.mem_append.mp ht with hm | hm
      · rw [List.mem_filterMap] at hm
        obtain ⟨p, hp, hpe⟩ := hm
        cases hre : p.renderer with
        | none =>
          rw [hre] at hpe
          cases hpe
        | some r =>
          rw [hre] at hpe
          have heq : (r, p.pid, fwdOpt w s callback page.pid) = t := Option.some.inj hpe
          refine ⟨page, List.mem_cons_self _ _, p, hp, ?_, ?_⟩
          · rw [hre, ← heq]
          · rw [← heq]
      · obtain ⟨P, hP, p, hp, hone, htwo⟩ := ihB t hm
        exact ⟨P, List.mem_cons_of_mem _ hP, p, hp, hone, htwo⟩

/-- Child with a renderer, used in the C8 witness. -/
def witChildR : SubPage := { pid := 10, renderer := some 5 }

/-- Child without a renderer, used in the C8 witness. -/
def witChildN : SubPage := { pid := 11 }

/-- Composite page used in the C8 witness. -/
def witUnschedPage : MultiPage := { pid := 2, pages := [witChildR, witChildN] }

/-- Child-renderer update behaviour used in the C3 witness: always done. -/
def cuTrue : SubPage → QRect → Option FwdEntry → Bool := fun _ _ _ => true

theorem update_all_children_ready_iff_witness :
    (MultiPageRenderer.update cuTrue wLiveA ⟨[], 0⟩ witMulti witRect (some 0)).1 = true ↔
      ∀ pr ∈ witMulti.visiblePagesAt witRect, ∀ r, pr.1.renderer = some r →
        cuTrue pr.1 (pr.2.translated (-pr.1.x) (-pr.1.y))
          (fwdOpt wLiveA ⟨[], 0⟩ (some 0) witMulti.pid) = true :=
  update_all_children_ready_iff cuTrue wLiveA ⟨[], 0⟩ witMulti witRect (some 0)

theorem visiblePagesAt_intersections_sound_witness :
    (∀ pr ∈ witMulti.visiblePagesAt witRect,
        pr.2 = witRect.inter pr.1.geometry ∧ pr.2.isEmpty = false ∧
          ∀ pt : ℤ × ℤ, pr.2.containsB pt = true → witRect.containsB pt = true) ∧
      (witRect.isEmpty = true → witMulti.visiblePagesAt witRect = []) :=
  visiblePagesAt_intersections_sound witMulti witRect

theorem updateSize_child_rotation_and_zoom_witness :
    (witMulti.updateSize 72 72 1).pages.length = witMulti.pages.length ∧
      ∀ pc ∈ witMulti.pages.zip (witMulti.updateSize 72 72 1).pages,
        pc.2.computedRotation = (pc.1.rotation + witMulti.computedRotation) % 4 ∧
        pc.2.width =
          (SubPage.updateSize
            { pc.1 with
                computedRotation := (pc.1.rotation + witMulti.computedRotation) % 4 }
            72 72 (1 * witMulti.scalePages)).width ∧
        pc.2.height =
          (SubPage.updateSize
            { pc.1 with
                computedRotation := (pc.1.rotation + witMulti.computedRotation) % 4 }
            72 72 (1 * witMulti.scalePages)).height :=
  updateSize_child_rotation_and_zoom witMulti 72 72 1

theorem paint_background_and_topmost_witness :
    (PaintOp.fill witRect (resolvedPaperColor witMulti none) ∈
        MultiPageRenderer.paint none witMulti witRect ↔
      ∃ q : ℤ × ℤ, witRect.containsB q = true ∧
        ∀ pr ∈ witMulti.visiblePagesAt witRect, pr.2.containsB q = false) ∧
      (∀ pr0, ((witMulti.visiblePagesAt witRect).find? fun pr =>
            pr.2.containsB (1, 1)) = some pr0 →
        evalOps (MultiPageRenderer.paint none witMulti witRect) (fun _ => none) (1, 1) =
          some (.page pr0.1.pid)) ∧
      (witRect.containsB (1, 1) = true →
        (∀ pr ∈ witMulti.visiblePagesAt witRect, pr.2.containsB (1, 1) = false) →
        evalOps (MultiPageRenderer.paint none witMulti witRect) (fun _ => none) (1, 1) =
          some (.color (resolvedPaperColor witMulti none))) :=
  paint_background_and_topmost none witMulti witRect (fun _ => none) (1, 1)

theorem updateSize_idempotent_witness :
    (witMulti.updateSize 72 72 1).updateSize 72 72 1 = witMulti.updateSize 72 72 1 :=
  updateSize_idempotent witMulti 72 72 1

theorem unschedule_delegates_to_all_children_witness :
    (∀ P ∈ [witUnschedPage], ∀ p ∈ P.pages, ∀ r, p.renderer = some r →
        ∃ cb, (r, p.pid, cb) ∈
            (MultiPageRenderer.unschedule wLiveA ⟨[], 0⟩ [witUnschedPage] (some 0)).1 ∧
          ((some 0 : Option ℕ) = none → cb = none) ∧
          ∀ c, (some 0 : Option ℕ) = some c → ∃ f, cb = some f ∧ f.cbref = c) ∧
      ∀ t ∈ (MultiPageRenderer.unschedule wLiveA ⟨[], 0⟩ [witUnschedPage] (some 0)).1,
        ∃ P ∈ [witUnschedPage], ∃ p ∈ P.pages, p.renderer = some t.1 ∧ t.2.1 = p.pid :=
  unschedule_delegates_to_all_children wLiveA ⟨[], 0⟩ [witUnschedPage] (some 0) WFTable_nil

end Multipage
